import Mathlib

/-!
Verification of `datashader/data_libraries/dask.py`: the partitioned
grid-aggregation pipeline.  We shallowly embed the bounds resolution
(`shape_bounds_st_and_axis`), the generic plan builder (`default`, with
`wrapped_combine` / `wrapped_finalize`), the sequential-overlap plan
builder for lines (`line`), and the driver (`dask_pipeline`), and prove
the spec's claims about them.
-/

namespace DaskModel

/-- Python's `a or b` on optional values: `None` is the only falsy value in
our model (Canvas ranges are `None` or a nonempty tuple, schedulers are
`None` or a callable), so `a or b` yields `a` when it is `some`, else `b`. -/
def pyOr (a b : Option β) : Option β :=
  if a.isSome then a else b

/-- Error surfaced by bounds computation.
Modelled from the spec: `glyph.compute_bounds_dask` lives in
`datashader.glyphs`, outside the analysed source; the spec states it
"Fails with `EmptyDatasetError` if no partition yields a finite extent
(all-NaN or zero-row dataset)". -/
inductive DSError : Type where
  | emptyDataset : DSError
deriving DecidableEq, Repr

/-- Result of the bounds-resolution phase of `shape_bounds_st_and_axis`
(lines 39-47 of the source): whether `glyph.compute_bounds_dask` was
invoked (a full partition scan), and the resolved x/y ranges. -/
structure SBOut (E : Type) where
  scanned : Bool
  x_range : Option (E × E)
  y_range : Option (E × E)
deriving DecidableEq, Repr

/-- The bounds-resolution logic of `shape_bounds_st_and_axis`:

    if not canvas.x_range or not canvas.y_range:
        x_extents, y_extents = glyph.compute_bounds_dask(df)
    else:
        x_extents, y_extents = None, None
    x_range = canvas.x_range or x_extents
    y_range = canvas.y_range or y_extents

`cx`/`cy` are the Canvas-supplied ranges (`None` when absent), `cb` is the
outcome of `glyph.compute_bounds_dask(df)` (modelled from the spec as
possibly raising `EmptyDatasetError`); the source calls it unguarded, so
any error propagates. -/
def shape_bounds (cx cy : Option (E × E))
    (cb : Except DSError ((E × E) × (E × E))) : Except DSError (SBOut E) :=
  if cx.isNone || cy.isNone then
    match cb with
    | .error e => .error e
    | .ok (xe, ye) => .ok ⟨true, pyOr cx (some xe), pyOr cy (some ye)⟩
  else
    .ok ⟨false, pyOr cx none, pyOr cy none⟩

/-! ### Sequential-overlap plan builder (`line`, lines 131-164) -/

/-- Pandas `df.iloc[-1:]` on a partition modelled as a list of rows: the
one-element list holding the last row, or the empty list for an empty
partition. -/
def lastRow (df : List α) : List α :=
  match df.getLast? with
  | none => []
  | some a => [a]

/-- The `chunk` closure of `line` (lines 147-154), with the compiled
`create`/`extend` pair abstracted as `ext rows plot_start` (the aggregate
buffer produced by allocating via `create(shape)` and extending over
`rows` with the given `plot_start` flag):

    def chunk(df, df2=None):
        plot_start = True
        if df2 is not None:
            df = concat([df.iloc[-1:], df2])
            plot_start = False
        aggs = create(shape)
        extend(aggs, df, st, bounds, plot_start=plot_start)
        return aggs
-/
def lineChunk (ext : List α → Bool → A) (df : List α) : Option (List α) → A
  | none => ext df true
  | some df2 => ext (lastRow df ++ df2) false

/-- Keys of the graph built by `line`: `(name, i)` for the per-partition
chunk tasks and the bare `name` for the terminal finalize task. -/
inductive LineKey : Type where
  | part : Nat → LineKey
  | top : LineKey
deriving DecidableEq, Repr

/-- Keys a task's arguments reference: `(old_name, i)` raw dataframe
partition keys, `(name, i)` chunk-task keys, or the terminal `name` key. -/
inductive DepKey : Type where
  | raw : Nat → DepKey
  | chunkOf : Nat → DepKey
  | topOf : DepKey
deriving DecidableEq, Repr

/-- Tasks of the graph built by `line` (lines 158-163): `chunk1 i` is
`(chunk, (old_name, i))`, `chunk2 j i` is `(chunk, (old_name, j), (old_name, i))`,
and `finalizeTop ks coords dims` is
`(apply, finalize, [(combine, keys2)], dict(cuda=cuda, coords=axis, dims=...))`
with `ks` the partition indices of `keys2`. -/
inductive LineTask (L I : Type) : Type where
  | chunk1 : Nat → LineTask L I
  | chunk2 : Nat → Nat → LineTask L I
  | finalizeTop : List Nat → List (L × I) → List L → LineTask L I
deriving DecidableEq, Repr

/-- The keys a task's arguments reference in the graph. -/
def taskDeps : LineTask L I → List DepKey
  | .chunk1 i => [.raw i]
  | .chunk2 j i => [.raw j, .raw i]
  | .finalizeTop ks _ _ => ks.map .chunkOf

/-- The `axis` OrderedDict of `shape_bounds_st_and_axis` (line 59):
`OrderedDict([(glyph.x_label, x_axis), (glyph.y_label, y_axis)])`. -/
def buildAxis (xlabel ylabel : L) (xaxis yaxis : I) : List (L × I) :=
  [(xlabel, xaxis), (ylabel, yaxis)]

/-- The task graph built by `line` (lines 156-163) for `n` partitions:

    dsk = {(name, 0): (chunk, (old_name, 0))}
    for i in range(1, df.npartitions):
        dsk[(name, i)] = (chunk, (old_name, i - 1), (old_name, i))
    keys2 = [(name, i) for i in range(df.npartitions)]
    dsk[name] = (apply, finalize, [(combine, keys2)],
                 dict(cuda=cuda, coords=axis, dims=[glyph.y_label, glyph.x_label]))
-/
def lineDsk (n : Nat) (xlabel ylabel : L) (xaxis yaxis : I) :
    List (LineKey × LineTask L I) :=
  ((LineKey.part 0, LineTask.chunk1 0) ::
    (List.range (n - 1)).map (fun j => (LineKey.part (j + 1), LineTask.chunk2 j (j + 1))))
  ++ [(LineKey.top,
       LineTask.finalizeTop (List.range n) (buildAxis xlabel ylabel xaxis yaxis)
         [ylabel, xlabel])]

/-- Evaluation of a leaf (chunk) task of the line graph against the
partitioned data: `(old_name, i)` resolves to partition `i`'s rows. -/
def evalLeaf (ext : List α → Bool → A) (parts : List (List α)) :
    LineTask L I → Option A
  | .chunk1 i => some (lineChunk ext (parts.getD i []) none)
  | .chunk2 j i => some (lineChunk ext (parts.getD j []) (some (parts.getD i [])))
  | .finalizeTop _ _ _ => none

/-- Output of the chunk task `(name, i)` as wired by `lineDsk`: partition 0
runs `chunk` on its own rows alone, partition `i ≥ 1` runs `chunk` with
partitions `i-1` and `i`. -/
def chunkOut (ext : List α → Bool → A) (parts : List (List α)) (i : Nat) : A :=
  if i = 0 then lineChunk ext (parts.getD 0 []) none
  else lineChunk ext (parts.getD (i - 1) []) (some (parts.getD i []))

/-- The finalized result of evaluating the whole `line` plan: the terminal
task applies `finalize` to `combine` of the `n` chunk outputs. -/
def linePlanResult (ext : List α → Bool → A) (combine : List A → A)
    (finalize : A → G) (parts : List (List α)) : G :=
  finalize (combine ((List.range parts.length).map (chunkOut ext parts)))

/-! ### Semantic model of `extend` for line glyphs

The claim's hypothesis: the compiled `combine` is associative and
commutative (modelled by taking aggregate buffers in an additive
commutative monoid, with `combine` summing its list argument as the
reduction identity permits), and `extend` draws each segment given its two
endpoint rows (modelled by `segments`: the marks contributed by one
segment are `seg a b`, and a frame contributes the marks of each
consecutive row pair). -/

/-- The marks drawn when extending over a frame of rows: one `seg a b`
contribution per consecutive pair `(a, b)` of rows. -/
def segments [AddCommMonoid A] (seg : α → α → A) : List α → A
  | a :: b :: rest => seg a b + segments seg (b :: rest)
  | _ => 0

/-- The sum of the overlap chunks after the first: partition `p` in the
list is extended as `lastRow prev ++ p` where `prev` is its predecessor. -/
def overlapSum [AddCommMonoid A] (seg : α → α → A) (prev : List α) :
    List (List α) → A
  | [] => 0
  | p :: rest => segments seg (lastRow prev ++ p) + overlapSum seg p rest

/-- The claim's model of the compiled `extend`: extending a buffer over a
frame of rows draws each segment given its two endpoint rows, regardless
of the `plot_start` flag. -/
def segExtend [AddCommMonoid A] (seg : α → α → A) : List α → Bool → A :=
  fun rows _ => segments seg rows

/-- The claim's model of the compiled `combine` (assumed associative and
commutative): summing the list of aggregate buffers. -/
def combineModel [AddCommMonoid A] : List A → A := List.sum

/-! ### Generic plan builder (`default`, lines 67-128) -/

/-- A Python value arriving at `wrapped_combine` (line 97): a list of
aggregate buffers, a single buffer (the `tuple with single ndarray` case;
a buffer is itself a tuple of arrays, so the tuple IS the buffer), or a
value of any other type, carried with its type's display string. -/
inductive WCIn (B : Type) : Type where
  | pyList : List B → WCIn B
  | pyTuple : B → WCIn B
  | pyOther : String → WCIn B
deriving DecidableEq, Repr

/-- `wrapped_combine` (lines 97-111): list input is merged by the compiled
`combine`; tuple input is returned unchanged; anything else raises
`TypeError("Unknown type %s in wrapped_combine" % type(x))`. -/
def wrapped_combine (combine : List B → B) : WCIn B → Except String B
  | .pyList l => .ok (combine l)
  | .pyTuple b => .ok b
  | .pyOther ty => .error ("Unknown type " ++ ty ++ " in wrapped_combine")

/-- The argument list of a call to the compiled `finalize`: the merged
buffer plus the keyword arguments `cuda`, `coords` and `dims`. -/
structure FinalizeCall (L I B : Type) where
  buf : B
  cuda : Bool
  coords : List (L × I)
  dims : List L
deriving DecidableEq, Repr

/-- `wrapped_finalize` (lines 115-118): feeds the result of
`wrapped_combine` to `finalize` with `coords=local_ax` (the `axis`
OrderedDict of `shape_bounds_st_and_axis`) and
`dims=[glyph.y_label, glyph.x_label]`; we record the call. -/
def wrapped_finalize (combine : List B → B) (cuda : Bool)
    (local_ax : List (L × I)) (ylabel xlabel : L) (x : WCIn B) :
    Except String (FinalizeCall L I B) :=
  match wrapped_combine combine x with
  | .error e => .error e
  | .ok b => .ok ⟨b, cuda, local_ax, [ylabel, xlabel]⟩

/-! ### The driver `dask_pipeline` (lines 19-35) -/

/-- The plan a glyph dispatch returns: either a dask array (the generic
builder's `da.reduction` result) or a task graph with its terminal key
(the `line` builder's result). -/
inductive PlanOut (Arr G K : Type) : Type where
  | arr : Arr → PlanOut Arr G K
  | graph : G → K → PlanOut Arr G K

/-- The dask dataframe as the driver sees it: its graph, its partition
keys, and its default scheduler `df.__dask_scheduler__`. -/
structure DaskDF (G K S : Type) where
  dfGraph : G
  dfKeys : List K
  defaultScheduler : S

/-- Line 25: `scheduler = dask.base.get_scheduler() or df.__dask_scheduler__`.
`configured` is the user-configured scheduler (`None` when unset);
`df.__dask_scheduler__` is always a real callable, hence truthy, so the
fallback branch of the match is unreachable. -/
def resolveScheduler (configured : Option S) (dfDefault : S) : S :=
  match pyOr configured (some dfDefault) with
  | some s => s
  | none => dfDefault

/-- `dask_pipeline` (lines 19-35), with the external operations abstracted:
`daCompute s a` is `da.compute(a, scheduler=s)[0]` (computing one dask
collection yields a one-tuple; the driver takes its only element),
`schedRun s g k` executes graph `g` at key `k` with scheduler `s`,
`optimize` is `df.__dask_optimize__` and `update` is Python
`dict.update` merging the optimized dataframe graph into the plan graph. -/
def dask_pipeline (configured : Option S) (daCompute : S → Arr → V)
    (schedRun : S → G → K → V) (optimize : G → List K → G)
    (update : G → G → G) (df : DaskDF G K S) (plan : PlanOut Arr G K) : V :=
  let scheduler := resolveScheduler configured df.defaultScheduler
  match plan with
  | .arr a => daCompute scheduler a
  | .graph dsk name => schedRun scheduler (update dsk (optimize df.dfGraph df.dfKeys)) name

/-! ### Graph lookup -/

/-- Lookup of a key in a task graph modelled as an association list (the
graphs built here have pairwise-distinct keys, so first-match lookup
agrees with Python dict lookup). -/
def dskLookup [DecidableEq K] (g : List (K × T)) (k : K) : Option T :=
  match g with
  | [] => none
  | (k2, t) :: rest => if k2 = k then some t else dskLookup rest k

/-- Python `dict.update` on association-list graphs: entries of `e`
override entries of `d` with the same key; entries of `d` whose key is
absent from `e` are retained. -/
def dictUpdate [DecidableEq K] (d e : List (K × T)) : List (K × T) :=
  d.filter (fun kv => (dskLookup e kv.1).isNone) ++ e

/-! ### Helper lemmas -/

theorem segments_nil [AddCommMonoid A] (seg : α → α → A) : segments seg [] = 0 := rfl

theorem segments_single [AddCommMonoid A] (seg : α → α → A) (a : α) :
    segments seg [a] = 0 := rfl

theorem segments_cons_cons [AddCommMonoid A] (seg : α → α → A) (a b : α) (rest : List α) :
    segments seg (a :: b :: rest) = seg a b + segments seg (b :: rest) := rfl

/-- Splitting a nonempty frame: the segments of `xs ++ ys` are those of
`xs` plus those of the frame formed by the last row of `xs` followed by
`ys` — exactly the frame the `line` chunk task rebuilds by
`concat([df.iloc[-1:], df2])`. -/
theorem segments_append [AddCommMonoid A] (seg : α → α → A) (xs ys : List α)
    (h : xs ≠ []) :
    segments seg (xs ++ ys) = segments seg xs + segments seg (lastRow xs ++ ys) := by
  induction xs with
  | nil => exact absurd rfl h
  | cons a t ih =>
    cases t with
    | nil =>
      have h1 : lastRow [a] = [a] := by simp [lastRow]
      rw [h1, segments_single, zero_add]
    | cons b t2 =>
      have ht : (b :: t2) ≠ [] := by simp
      have hlast : lastRow (a :: b :: t2) = lastRow (b :: t2) := by
        simp [lastRow, List.getLast?]
      calc segments seg ((a :: b :: t2) ++ ys)
          = seg a b + segments seg ((b :: t2) ++ ys) := rfl
        _ = seg a b + (segments seg (b :: t2) + segments seg (lastRow (b :: t2) ++ ys)) := by
              rw [ih ht]
        _ = (seg a b + segments seg (b :: t2)) + segments seg (lastRow (b :: t2) ++ ys) := by
              rw [add_assoc]
        _ = segments seg (a :: b :: t2) + segments seg (lastRow (a :: b :: t2) ++ ys) := by
              rw [segments_cons_cons, hlast]

/-- `overlapSum` only reads its `prev` argument through `lastRow`. -/
theorem overlapSum_congr_last [AddCommMonoid A] (seg : α → α → A)
    (prev prev2 : List α) (rest : List (List α))
    (h : lastRow prev = lastRow prev2) :
    overlapSum seg prev rest = overlapSum seg prev2 rest := by
  cases rest with
  | nil => rfl
  | cons p t => simp [overlapSum, h]

/-- Accumulated form of the partition-invariance argument: a nonempty
prefix `prev` followed by a list of nonempty partitions contributes, chunk
by chunk, exactly the segments of the concatenated rows. -/
theorem overlapSum_join [AddCommMonoid A] (seg : α → α → A)
    (parts : List (List α)) :
    ∀ prev : List α, prev ≠ [] → (∀ p ∈ parts, p ≠ []) →
      segments seg prev + overlapSum seg prev parts
        = segments seg (prev ++ parts.flatten) := by
  induction parts with
  | nil => intro prev _ _; simp [overlapSum]
  | cons p rest ih =>
    intro prev hprev hall
    have hp : p ≠ [] := hall p (List.mem_cons_self p rest)
    have hrest : ∀ q ∈ rest, q ≠ [] := fun q hq => hall q (List.mem_cons_of_mem p hq)
    have hlast : lastRow (prev ++ p) = lastRow p := by
      cases hgl : p.getLast? with
      | none => exact absurd (List.getLast?_eq_none_iff.mp hgl) hp
      | some a =>
        simp [lastRow, List.getLast?_append_of_ne_nil prev hp, hgl]
    calc segments seg prev + overlapSum seg prev (p :: rest)
        = segments seg prev + (segments seg (lastRow prev ++ p) + overlapSum seg p rest) := rfl
      _ = (segments seg prev + segments seg (lastRow prev ++ p)) + overlapSum seg p rest := by
            rw [add_assoc]
      _ = segments seg (prev ++ p) + overlapSum seg p rest := by
            rw [segments_append seg prev p hprev]
      _ = segments seg (prev ++ p) + overlapSum seg (prev ++ p) rest := by
            rw [overlapSum_congr_last seg p (prev ++ p) rest hlast.symm]
      _ = segments seg ((prev ++ p) ++ rest.flatten) := by
            exact ih (prev ++ p) (by simp [hp]) hrest
      _ = segments seg (prev ++ (p :: rest).flatten) := by
            simp

/-- The chunk outputs of partitions `1..n` in the `line` graph sum to the
overlap chunks of the tail, threaded from the head partition. -/
theorem chunkOut_tail_sum [AddCommMonoid A] (seg : α → α → A)
    (rest : List (List α)) :
    ∀ prev : List α,
      ((List.range rest.length).map
          (fun j => chunkOut (segExtend seg) (prev :: rest) (j + 1))).sum
        = overlapSum seg prev rest := by
  induction rest with
  | nil => intro prev; rfl
  | cons q t ih =>
    intro prev
    have hf : (fun j => chunkOut (segExtend seg) (prev :: q :: t) (Nat.succ j + 1))
        = fun j => chunkOut (segExtend seg) (q :: t) (j + 1) := by
      funext j
      simp [chunkOut, List.getD_cons_succ]
    calc ((List.range (q :: t).length).map
            (fun j => chunkOut (segExtend seg) (prev :: q :: t) (j + 1))).sum
        = ((0 :: (List.range t.length).map Nat.succ).map
            (fun j => chunkOut (segExtend seg) (prev :: q :: t) (j + 1))).sum := by
          rw [List.length_cons, List.range_succ_eq_map]
      _ = chunkOut (segExtend seg) (prev :: q :: t) 1
            + ((List.range t.length).map
                (fun j => chunkOut (segExtend seg) (prev :: q :: t) (Nat.succ j + 1))).sum := by
          rw [List.map_cons, List.sum_cons, List.map_map]; rfl
      _ = segments seg (lastRow prev ++ q) + overlapSum seg q t := by
          rw [hf, ih q]
          simp [chunkOut, lineChunk, segExtend]
      _ = overlapSum seg prev (q :: t) := rfl

/-- The combined buffer of the whole `line` plan is the segments of the
concatenated rows, provided every partition is nonempty. -/
theorem linePlan_combined [AddCommMonoid A] (seg : α → α → A)
    (parts : List (List α)) (hall : ∀ p ∈ parts, p ≠ []) :
    combineModel ((List.range parts.length).map (chunkOut (segExtend seg) parts))
      = segments seg parts.flatten := by
  cases parts with
  | nil => rfl
  | cons p rest =>
    have hp : p ≠ [] := hall p (List.mem_cons_self p rest)
    have hrest : ∀ q ∈ rest, q ≠ [] := fun q hq => hall q (List.mem_cons_of_mem p hq)
    calc combineModel ((List.range (p :: rest).length).map (chunkOut (segExtend seg) (p :: rest)))
        = ((0 :: (List.range rest.length).map Nat.succ).map
            (chunkOut (segExtend seg) (p :: rest))).sum := by
          rw [combineModel, List.length_cons, List.range_succ_eq_map]
      _ = chunkOut (segExtend seg) (p :: rest) 0
            + ((List.range rest.length).map
                (fun j => chunkOut (segExtend seg) (p :: rest) (Nat.succ j))).sum := by
          rw [List.map_cons, List.sum_cons, List.map_map]; rfl
      _ = segments seg p + overlapSum seg p rest := by
          rw [chunkOut_tail_sum seg rest p]
          simp [chunkOut, lineChunk, segExtend]
      _ = segments seg (p ++ rest.flatten) := overlapSum_join seg rest p hp hrest
      _ = segments seg (p :: rest).flatten := by simp

/-- Lookup in the mapped chunk-task block of `lineDsk`: entry `j` carries
key `part (j + s + 1)`, so key `part (i + s + 1)` with `i < m` resolves to
the `i`-th task. -/
theorem dskLookup_partMap (m : ℕ) (f : ℕ → LineTask L I) :
    ∀ (s i : ℕ) (tail : List (LineKey × LineTask L I)), i < m →
      dskLookup ((List.range m).map (fun j => (LineKey.part (j + s + 1), f (j + s))) ++ tail)
        (LineKey.part (i + s + 1)) = some (f (i + s)) := by
  induction m with
  | zero => intro s i tail h; omega
  | succ m ih =>
    intro s i tail h
    rw [List.range_succ_eq_map, List.map_cons, List.map_map]
    have hfn : ((fun j => (LineKey.part (j + s + 1), f (j + s))) ∘ Nat.succ)
        = fun j => (LineKey.part (j + (s + 1) + 1), f (j + (s + 1))) := by
      funext j
      have h1 : Nat.succ j + s = j + (s + 1) := by omega
      simp [Function.comp, h1]
    rw [hfn]
    cases i with
    | zero =>
      simp [dskLookup]
    | succ i2 =>
      have hne : LineKey.part (0 + s + 1) ≠ LineKey.part (Nat.succ i2 + s + 1) := by
        intro hcontra
        have h0 : (0 + s + 1) = (Nat.succ i2 + s + 1) := LineKey.part.inj hcontra
        omega
      rw [List.cons_append, dskLookup]
      rw [if_neg hne]
      have h2 : Nat.succ i2 + s + 1 = i2 + (s + 1) + 1 := by omega
      have h3 : Nat.succ i2 + s = i2 + (s + 1) := by omega
      rw [h2, h3]
      exact ih (s + 1) i2 tail (by omega)

/-- Lookup skips a prefix none of whose keys match. -/
theorem dskLookup_append_of_ne [DecidableEq K] (l tail : List (K × T)) (k : K)
    (h : ∀ kv ∈ l, kv.1 ≠ k) : dskLookup (l ++ tail) k = dskLookup tail k := by
  induction l with
  | nil => rfl
  | cons kv rest ih =>
    rw [List.cons_append, dskLookup]
    rw [if_neg (h kv (List.mem_cons_self kv rest))]
    exact ih (fun kv2 h2 => h kv2 (List.mem_cons_of_mem kv h2))

/-- `dictUpdate` realizes Python `dict.update` lookup semantics: keys of
the second graph take precedence, all other keys fall back to the first. -/
theorem dskLookup_dictUpdate [DecidableEq K] (d e : List (K × T)) (k : K) :
    dskLookup (dictUpdate d e) k
      = if (dskLookup e k).isSome then dskLookup e k else dskLookup d k := by
  induction d with
  | nil =>
    cases h : dskLookup e k with
    | none => simp [dictUpdate, dskLookup, h]
    | some t => simp [dictUpdate, dskLookup, h]
  | cons kv d2 ih =>
    rw [dictUpdate] at ih
    by_cases hk : kv.1 = k
    · cases h : dskLookup e k with
      | none =>
        have hkeep : (dskLookup e kv.1).isNone = true := by rw [hk, h]; rfl
        simp [dictUpdate, List.filter_cons, hkeep, dskLookup, hk, h]
      | some t =>
        have hdrop : (dskLookup e kv.1).isNone = false := by rw [hk, h]; rfl
        simp [dictUpdate, List.filter_cons, hdrop, dskLookup, hk, h, ih]
    · cases hfilter : (dskLookup e kv.1).isNone with
      | false => simp [dictUpdate, List.filter_cons, hfilter, dskLookup, hk, ih]
      | true => simp [dictUpdate, List.filter_cons, hfilter, dskLookup, hk, ih]

/-- The `line` plan on a single partition finalizes the segments of that
partition's rows. -/
theorem linePlan_single [AddCommMonoid A] (seg : α → α → A)
    (finalize : A → G) (ws : List α) :
    linePlanResult (segExtend seg) combineModel finalize [ws]
      = finalize (segments seg ws) := by
  simp [linePlanResult, combineModel, chunkOut, lineChunk, segExtend, List.range_succ]

/-! ### Claim theorems -/

/-- C1: For every line dataset split into partitions at arbitrary row
boundaries (each partition nonempty), the finalized grid produced by the
sequential-overlap plan built by `line` equals the grid produced by
aggregating the same rows as a single partition, assuming the compiled
`combine` is associative and commutative (aggregate buffers form an
additive commutative monoid merged by summation) and `extend` draws each
segment given its two endpoint rows (`segExtend`). -/
theorem line_partition_invariance [AddCommMonoid A] (seg : α → α → A)
    (finalize : A → G) (parts : List (List α)) (hall : ∀ p ∈ parts, p ≠ []) :
    linePlanResult (segExtend seg) combineModel finalize parts
      = linePlanResult (segExtend seg) combineModel finalize [parts.flatten] :=
  calc linePlanResult (segExtend seg) combineModel finalize parts
      = finalize (combineModel
          ((List.range parts.length).map (chunkOut (segExtend seg) parts))) := rfl
    _ = finalize (segments seg parts.flatten) := by
          rw [linePlan_combined seg parts hall]
    _ = linePlanResult (segExtend seg) combineModel finalize [parts.flatten] :=
          (linePlan_single seg finalize parts.flatten).symm

/-- Witness for C1 at a concrete split: three nonempty partitions of the
row sequence `[0, 1, 2, 3, 4]`, buffers being multisets of drawn
segments. -/
theorem line_partition_invariance_witness :
    (∀ p ∈ [[0, 1], [2], [3, 4]], p ≠ ([] : List ℕ))
    ∧ linePlanResult (segExtend fun a b => ({(a, b)} : Multiset (ℕ × ℕ)))
        combineModel id [[0, 1], [2], [3, 4]]
      = linePlanResult (segExtend fun a b => ({(a, b)} : Multiset (ℕ × ℕ)))
        combineModel id [([[0, 1], [2], [3, 4]] : List (List ℕ)).flatten] :=
  ⟨by decide,
   line_partition_invariance (fun a b => ({(a, b)} : Multiset (ℕ × ℕ))) id
     [[0, 1], [2], [3, 4]] (by decide)⟩

/-- C2: In the plan built by `line`, the leaf task for partition 0 is
`(chunk, (old_name, 0))`, invoked on partition 0's rows alone with
`plot_start` true; for every `i ≥ 1` (with `i < n`) the leaf task is
`(chunk, (old_name, i-1), (old_name, i))`, invoked on the concatenation of
the last row `r` of partition `i-1` followed by all rows of partition `i`,
with `plot_start` false. -/
theorem line_leaf_invocations (ext : List α → Bool → A)
    (parts : List (List α)) (n : ℕ) (xl yl : L) (xa ya : I) (i : ℕ)
    (h1 : 1 ≤ i) (h2 : i < n) (r : α)
    (hr : (parts.getD (i - 1) []).getLast? = some r) :
    dskLookup (lineDsk n xl yl xa ya) (LineKey.part 0) = some (LineTask.chunk1 0)
    ∧ evalLeaf ext parts (LineTask.chunk1 0 : LineTask L I)
        = some (ext (parts.getD 0 []) true)
    ∧ dskLookup (lineDsk n xl yl xa ya) (LineKey.part i)
        = some (LineTask.chunk2 (i - 1) i)
    ∧ evalLeaf ext parts (LineTask.chunk2 (i - 1) i : LineTask L I)
        = some (ext (r :: parts.getD i []) false) := by
  obtain ⟨i2, rfl⟩ : ∃ i2, i = i2 + 1 := ⟨i - 1, by omega⟩
  refine ⟨?_, rfl, ?_, ?_⟩
  · rw [lineDsk, List.cons_append, dskLookup, if_pos rfl]
  · rw [lineDsk, List.cons_append, dskLookup]
    rw [if_neg (by intro hcontra; exact absurd (LineKey.part.inj hcontra) (by omega))]
    exact dskLookup_partMap (n - 1) (fun j => LineTask.chunk2 j (j + 1)) 0 i2 _ (by omega)
  · have hr2 : (parts.getD i2 []).getLast? = some r := by simpa using hr
    have hlr : lastRow (parts.getD i2 []) = [r] := by
      simp only [lastRow, hr2]
    simp only [evalLeaf, lineChunk, Nat.add_sub_cancel, hlr, List.singleton_append]

/-- Witness for C2: two partitions `[[5, 6], [7]]`, boundary index 1,
boundary row 6. -/
theorem line_leaf_invocations_witness :
    ((1 : ℕ) ≤ 1 ∧ 1 < 2
      ∧ (([[5, 6], [7]] : List (List ℕ)).getD 0 []).getLast? = some 6)
    ∧ dskLookup (lineDsk 2 "x" "y" (0 : ℕ) 1) (LineKey.part 1)
        = some (LineTask.chunk2 0 1) :=
  ⟨⟨by decide, by decide, by decide⟩,
   (line_leaf_invocations (fun rows ps => (rows, ps)) [[5, 6], [7]] 2 "x" "y" 0 1 1
     (by decide) (by decide) 6 (by decide)).2.2.1⟩

/-- C3: In the graph returned by `line` for `n` partitions, every chunk
task `(name, i)` references only raw dataframe partition keys — its own,
and for `i ≥ 1` also its predecessor's — never another chunk task's
output; and there is exactly one terminal node, keyed `name`, holding the
task that applies `finalize` to the `combine` of all `n` chunk outputs. -/
theorem line_graph_invariants (n : ℕ) (xl yl : L) (xa ya : I) :
    (∀ (i : ℕ) (t : LineTask L I), (LineKey.part i, t) ∈ lineDsk n xl yl xa ya →
        ∀ d ∈ taskDeps t, d = DepKey.raw i ∨ (1 ≤ i ∧ d = DepKey.raw (i - 1)))
    ∧ (lineDsk n xl yl xa ya).countP (fun e => decide (e.1 = LineKey.top)) = 1
    ∧ dskLookup (lineDsk n xl yl xa ya) LineKey.top
        = some (LineTask.finalizeTop (List.range n)
            (buildAxis xl yl xa ya) [yl, xl]) := by
  refine ⟨?_, ?_, ?_⟩
  · intro i t hmem d hd
    rw [lineDsk] at hmem
    rcases List.mem_append.mp hmem with hleft | hright
    · rcases List.mem_cons.mp hleft with hhead | hmap
      · obtain ⟨hi, ht⟩ := Prod.mk.injEq .. ▸ hhead
        obtain rfl : i = 0 := (LineKey.part.inj hi.symm).symm
        subst ht
        simp only [taskDeps, List.mem_singleton] at hd
        exact Or.inl hd
      · obtain ⟨j, _, hjeq⟩ := List.mem_map.mp hmap
        obtain ⟨hi, ht⟩ := Prod.mk.injEq .. ▸ hjeq
        obtain rfl : i = j + 1 := (LineKey.part.inj hi).symm
        subst ht
        simp only [taskDeps, List.mem_cons, List.not_mem_nil, or_false] at hd
        rcases hd with rfl | rfl
        · exact Or.inr ⟨by omega, by simp⟩
        · exact Or.inl rfl
    · exfalso
      rcases List.mem_singleton.mp hright with hcontra
      exact absurd (congrArg Prod.fst hcontra) (by simp)
  · rw [lineDsk, List.countP_append, List.countP_cons, List.countP_map]
    have hzero : (List.range (n - 1)).countP
        ((fun e : LineKey × LineTask L I => decide (e.1 = LineKey.top)) ∘
          fun j => (LineKey.part (j + 1), LineTask.chunk2 j (j + 1))) = 0 := by
      apply List.countP_eq_zero.mpr
      intro j _
      simp [Function.comp]
    rw [hzero]
    simp [List.countP_cons, List.countP_nil]
  · rw [lineDsk]
    rw [dskLookup_append_of_ne]
    · rw [dskLookup, if_pos rfl]
    · intro kv hkv
      rcases List.mem_cons.mp hkv with rfl | hmap
      · simp
      · obtain ⟨j, _, hjeq⟩ := List.mem_map.mp hmap
        rw [← hjeq]
        simp

/-- Witness for C3: the two-partition graph, checked at the chunk task of
partition 1 and its dependency on raw partition 0. -/
theorem line_graph_invariants_witness :
    ((LineKey.part 1, (LineTask.chunk2 0 1 : LineTask String ℕ))
        ∈ lineDsk 2 "x" "y" (0 : ℕ) 1)
    ∧ (DepKey.raw 0 ∈ taskDeps (LineTask.chunk2 0 1 : LineTask String ℕ))
    ∧ (DepKey.raw 0 = DepKey.raw 1 ∨ (1 ≤ 1 ∧ DepKey.raw 0 = DepKey.raw 0)) :=
  ⟨by decide, by decide,
   (line_graph_invariants 2 "x" "y" (0 : ℕ) 1).1 1 (LineTask.chunk2 0 1)
     (by decide) (DepKey.raw 0) (by decide)⟩

/-- C4: `wrapped_combine` returns `combine x` when `x` is a list, returns
`x` unchanged when `x` is a tuple (a single buffer), and raises a
`TypeError` naming the offending type for any other input; it raises if
and only if the input is neither a list nor a tuple. -/
theorem wrapped_combine_cases (combine : List B → B) :
    (∀ l, wrapped_combine combine (WCIn.pyList l) = Except.ok (combine l))
    ∧ (∀ b, wrapped_combine combine (WCIn.pyTuple b) = Except.ok b)
    ∧ (∀ ty, wrapped_combine combine (WCIn.pyOther ty)
        = Except.error ("Unknown type " ++ ty ++ " in wrapped_combine"))
    ∧ (∀ x, (∃ e, wrapped_combine combine x = Except.error e)
        ↔ ∃ ty, x = WCIn.pyOther ty) := by
  refine ⟨fun l => rfl, fun b => rfl, fun ty => rfl, fun x => ?_⟩
  cases x <;> simp [wrapped_combine]

/-- Witness for C4 at a non-list, non-tuple input. -/
theorem wrapped_combine_cases_witness :
    wrapped_combine (List.sum : List ℕ → ℕ) (WCIn.pyOther "int")
      = Except.error ("Unknown type " ++ "int" ++ " in wrapped_combine") :=
  (wrapped_combine_cases (List.sum : List ℕ → ℕ)).2.2.1 "int"

/-- C5: If the Canvas supplies both `x_range` and `y_range`,
`shape_bounds_st_and_axis` does not invoke the glyph's bounds computation
(`scanned = false`, the `cb` outcome is irrelevant) and the resolved
bounds equal the supplied ranges unchanged. -/
theorem bounds_skip_when_supplied (rx ry : E × E)
    (cb : Except DSError ((E × E) × (E × E))) :
    shape_bounds (some rx) (some ry) cb = Except.ok ⟨false, some rx, some ry⟩ := by
  simp [shape_bounds, pyOr]

/-- C6: When bounds must be inferred (at least one Canvas range missing)
and the glyph's bounds computation fails with `EmptyDatasetError`, bounds
resolution propagates that error to the caller rather than substituting a
default range. -/
theorem bounds_empty_dataset_propagates (cx cy : Option (E × E))
    (h : cx.isNone || cy.isNone) :
    shape_bounds cx cy (Except.error DSError.emptyDataset)
      = Except.error DSError.emptyDataset := by
  simp [shape_bounds, h]

/-- Witness for C6: no ranges supplied, empty dataset. -/
theorem bounds_empty_dataset_propagates_witness :
    (((none : Option (ℕ × ℕ)).isNone || (none : Option (ℕ × ℕ)).isNone) = true)
    ∧ shape_bounds (none : Option (ℕ × ℕ)) none (Except.error DSError.emptyDataset)
        = Except.error DSError.emptyDataset :=
  ⟨by decide, bounds_empty_dataset_propagates none none (by decide)⟩

/-- C7: scheduler selection in `dask_pipeline` is a two-tier override —
the explicitly configured scheduler wins, otherwise the dataframe's
default scheduler — and the single resolved value is the one each
execution path of the driver uses. -/
theorem scheduler_two_tier (daCompute : S → Arr → V) (schedRun : S → G → K → V)
    (optimize : G → List K → G) (update : G → G → G) (df : DaskDF G K S) :
    (∀ s : S, resolveScheduler (some s) df.defaultScheduler = s)
    ∧ resolveScheduler (none : Option S) df.defaultScheduler = df.defaultScheduler
    ∧ (∀ (cfg : Option S) (a : Arr),
        dask_pipeline cfg daCompute schedRun optimize update df (PlanOut.arr a)
          = daCompute (resolveScheduler cfg df.defaultScheduler) a)
    ∧ (∀ (cfg : Option S) (dsk : G) (k : K),
        dask_pipeline cfg daCompute schedRun optimize update df (PlanOut.graph dsk k)
          = schedRun (resolveScheduler cfg df.defaultScheduler)
              (update dsk (optimize df.dfGraph df.dfKeys)) k) :=
  ⟨fun _ => rfl, rfl, fun _ _ => rfl, fun _ _ _ => rfl⟩

/-- C8: `dask_pipeline` returns exactly one value: an array-native plan is
computed via the array-computation path with the resolved scheduler;
otherwise the optimized dataframe graph is merged into the task graph
(`dict.update` semantics: dataframe entries take precedence, plan entries
for other keys are retained) and executed with the resolved scheduler on
the terminal key. -/
theorem pipeline_single_result [DecidableEq K]
    (cfg : Option S) (daCompute : S → Arr → V)
    (schedRun : S → List (K × T) → K → V)
    (optimize : List (K × T) → List K → List (K × T)) (df : DaskDF (List (K × T)) K S) :
    (∀ a : Arr,
        dask_pipeline cfg daCompute schedRun optimize dictUpdate df (PlanOut.arr a)
          = daCompute (resolveScheduler cfg df.defaultScheduler) a)
    ∧ (∀ (dsk : List (K × T)) (k : K),
        dask_pipeline cfg daCompute schedRun optimize dictUpdate df (PlanOut.graph dsk k)
          = schedRun (resolveScheduler cfg df.defaultScheduler)
              (dictUpdate dsk (optimize df.dfGraph df.dfKeys)) k)
    ∧ (∀ (dsk : List (K × T)) (k : K),
        dskLookup (dictUpdate dsk (optimize df.dfGraph df.dfKeys)) k
          = if (dskLookup (optimize df.dfGraph df.dfKeys) k).isSome
            then dskLookup (optimize df.dfGraph df.dfKeys) k
            else dskLookup dsk k) :=
  ⟨fun _ => rfl, fun _ _ => rfl,
   fun dsk k => dskLookup_dictUpdate dsk (optimize df.dfGraph df.dfKeys) k⟩

/-- C10: If the Canvas supplies exactly one of `x_range`/`y_range`,
`shape_bounds_st_and_axis` still invokes the glyph's bounds computation
(`scanned = true`, both extents computed), but the supplied axis keeps the
caller-provided range while the missing axis takes the computed extent. -/
theorem bounds_partial_supply (rx ry xe ye : E × E) :
    shape_bounds (some rx) (none : Option (E × E)) (Except.ok (xe, ye))
        = Except.ok ⟨true, some rx, some ye⟩
    ∧ shape_bounds (none : Option (E × E)) (some ry) (Except.ok (xe, ye))
        = Except.ok ⟨true, some xe, some ry⟩ := by
  constructor <;> simp [shape_bounds, pyOr]

/-- C9: In both the generic and the sequential-overlap strategies,
`finalize` is called with dimension labels ordered y then x
(`dims = [glyph.y_label, glyph.x_label]`) and with a coordinate mapping
(the `axis` OrderedDict) pairing the x label with the x-axis index and the
y label with the y-axis index. -/
theorem finalize_dims_coords [DecidableEq L] (combine : List B → B) (cuda : Bool)
    (xl yl : L) (xa ya : I) (x : WCIn B) (n : ℕ) (hxy : xl ≠ yl) :
    (∀ fc : FinalizeCall L I B,
        wrapped_finalize combine cuda (buildAxis xl yl xa ya) yl xl x = Except.ok fc →
          fc.dims = [yl, xl]
          ∧ dskLookup fc.coords xl = some xa
          ∧ dskLookup fc.coords yl = some ya)
    ∧ dskLookup (lineDsk n xl yl xa ya) LineKey.top
        = some (LineTask.finalizeTop (List.range n) (buildAxis xl yl xa ya) [yl, xl])
    ∧ dskLookup (buildAxis xl yl xa ya) xl = some xa
    ∧ dskLookup (buildAxis xl yl xa ya) yl = some ya := by
  refine ⟨?_, ?_, ?_, ?_⟩
  · intro fc heq
    cases x with
    | pyList l =>
      have heq2 : fc = ⟨combine l, cuda, buildAxis xl yl xa ya, [yl, xl]⟩ := by
        simpa [wrapped_finalize, wrapped_combine, eq_comm] using heq
      subst heq2
      exact ⟨rfl, by simp [dskLookup, buildAxis], by simp [dskLookup, buildAxis, hxy]⟩
    | pyTuple b =>
      have heq2 : fc = ⟨b, cuda, buildAxis xl yl xa ya, [yl, xl]⟩ := by
        simpa [wrapped_finalize, wrapped_combine, eq_comm] using heq
      subst heq2
      exact ⟨rfl, by simp [dskLookup, buildAxis], by simp [dskLookup, buildAxis, hxy]⟩
    | pyOther ty =>
      exact absurd heq (by simp [wrapped_finalize, wrapped_combine])
  · rw [lineDsk]
    rw [dskLookup_append_of_ne]
    · rw [dskLookup, if_pos rfl]
    · intro kv hkv
      rcases List.mem_cons.mp hkv with rfl | hmap
      · simp
      · obtain ⟨j, _, hjeq⟩ := List.mem_map.mp hmap
        rw [← hjeq]
        simp
  · simp [dskLookup, buildAxis]
  · simp [dskLookup, buildAxis, hxy]

/-- Witness for C9: labels `"x"`/`"y"`, a singleton-buffer input. -/
theorem finalize_dims_coords_witness :
    ("x" : String) ≠ "y"
    ∧ wrapped_finalize (List.sum : List ℕ → ℕ) false (buildAxis "x" "y" (0 : ℕ) 1)
        "y" "x" (WCIn.pyTuple 5)
      = Except.ok ⟨5, false, buildAxis "x" "y" (0 : ℕ) 1, ["y", "x"]⟩
    ∧ ((⟨5, false, buildAxis "x" "y" (0 : ℕ) 1, ["y", "x"]⟩ : FinalizeCall String ℕ ℕ).dims
          = ["y", "x"]
      ∧ dskLookup (⟨5, false, buildAxis "x" "y" (0 : ℕ) 1, ["y", "x"]⟩ :
          FinalizeCall String ℕ ℕ).coords "x" = some 0
      ∧ dskLookup (⟨5, false, buildAxis "x" "y" (0 : ℕ) 1, ["y", "x"]⟩ :
          FinalizeCall String ℕ ℕ).coords "y" = some 1) :=
  ⟨by decide, rfl,
   (finalize_dims_coords (List.sum : List ℕ → ℕ) false "x" "y" (0 : ℕ) 1
       (WCIn.pyTuple 5) 1 (by decide)).1
     ⟨5, false, buildAxis "x" "y" (0 : ℕ) 1, ["y", "x"]⟩ rfl⟩

end DaskModel
